import Mathlib

/-!
# Verification of the alignysis alignment-to-statistics pipeline

Shallow embedding of the core of the `alignysis` repository
(`alignysis/align.py`, `alignysis/phonetic.py`, `alignysis/discophone.py`):
token normalization, alignment classification, per-corpus error/confusion
aggregation and the cross-experiment merge, together with theorems settling
the specification claims about them.

Python strings are embedded as `String`, `None`-able values as `Option`,
integer counters as `Nat`, pandas `NaN`-able count cells as `Option Nat`,
dictionaries as association lists in insertion order, and Python exceptions
as `Except String`.  The external minimum-edit-distance primitive
`kaldialign.align` is an explicit function parameter (it is an external
dependency of the repository, specified only by its contract).
-/

namespace Alignysis

/-- `align.py`: the gap marker `GAP_CHAR`, the character `*`. -/
def GAP_CHAR : String := "*"

/-- Python `str.startswith`: prefix test on the character sequence. -/
def pyStartsWith (s pre : String) : Bool := pre.data.isPrefixOf s.data

/-- Helper for `pySplit`: `cur` is the reversed current token. -/
def pySplitAux (cur : List Char) : List Char → List String
  | [] => if cur = [] then [] else [String.mk cur.reverse]
  | c :: cs =>
    if c.isWhitespace then
      if cur = [] then pySplitAux [] cs else String.mk cur.reverse :: pySplitAux [] cs
    else pySplitAux (c :: cur) cs

/-- Python `str.split()` with no argument: split on runs of whitespace,
discarding empty pieces. -/
def pySplit (s : String) : List String := pySplitAux [] s.data

/-- One scanning step of `re.sub` deleting matches from a text for an alternation
`(s1|s2|...)` of literal symbol strings (the symbol lists of the repository contain
no regex metacharacters): at each position the first alternative that matches
is removed; an empty alternative matches the empty string, which is replaced
by the empty string, after which the scanner advances one character.
`fuel` bounds the recursion by the number of characters left; it never runs
out because a non-empty match consumes at least one character. -/
def subAllAux (syms : List String) : Nat → List Char → List Char
  | 0, cs => cs
  | _ + 1, [] => []
  | fuel + 1, c :: cs =>
    match syms.find? (fun sym => pyStartsWith (String.mk (c :: cs)) sym) with
    | some sym =>
      if sym = "" then c :: subAllAux syms fuel cs
      else subAllAux syms fuel ((c :: cs).drop sym.length)
    | none => c :: subAllAux syms fuel cs

/-- Deleting every match of a pattern built by
`get_ignored_symbols_re` from the literal strings `syms` (Python `remove_pattern.sub` with an empty replacement). -/
def patternSub (syms : List String) (text : String) : String :=
  String.mk (subAllAux syms text.data.length text.data)

/-- `align.py` `get_ignored_symbols_re(symbols)`:
`re.compile` of the alternation obtained by joining `symbols` with `|`.
For `symbols = None`, `str.join`
raises `TypeError: can only join an iterable`; otherwise the compiled pattern
is the alternation of the given literal strings, which we represent by the
list itself. -/
def get_ignored_symbols_re : Option (List String) → Except String (List String)
  | none => .error "TypeError: can only join an iterable"
  | some syms => .ok syms

/-- The `else` branch of the symbol-stripping step of `compute_confusions`:
replace the marker ` <silence> ` (with spaces) by a single space, then delete
every remaining `<silence>`, then strip surrounding whitespace.
In the source this branch is unreachable: `remove_pattern` is the result of
`get_ignored_symbols_re`, which either raises (on `None`) or returns a
compiled pattern, hence is never `None`. -/
def stripSilenceFallback (text : String) : String :=
  ((text.replace " <silence> " " ").replace "<silence>" "").trim

/-! ## `phonetic.py`: symbol classifier tables -/

/-- `phonetic.py` `IGNORED_SYMBOLS`. -/
def IGNORED_SYMBOLS : List String := [
  "\n",
  "<space>",
  "space>",
  "<silence>",
  "<noise>",
  ">",
  "-",
  "<",
  "与", "业", "东", "中", "为", "事", "于", "亚", "人", "亿", "件", "伊", "会", "住", "作", "使", "供",
  "值", "停", "元", "克", "公", "其", "军", "决", "况", "准", "出", "击", "利", "区", "半", "华", "南",
  "卫", "厅", "发", "取", "口", "司", "合", "同", "向", "国", "在", "城", "备", "好", "定", "实", "宣",
  "家", "对", "导", "射", "将", "尤", "就", "居", "展", "岚", "工", "已", "市", "布", "年", "并", "开",
  "弹", "强", "得", "态", "急", "惕", "我", "技", "投", "拉", "拓", "提", "政", "故", "敢", "数", "新",
  "方", "日", "时", "是", "未", "本", "李", "来", "栗", "歉", "止", "此", "民", "油", "治", "济", "清",
  "火", "爱", "状", "现", "用", "百", "的", "益", "石", "社", "种", "科", "穷", "突", "紧", "经", "美",
  "者", "要", "见", "警", "认", "论", "贫", "资", "迅", "这", "进", "远", "迫", "速", "道", "里", "防",
  "青", "非", "革", "领", "驱", "鼎"]

/-- `phonetic.py` `phone_to_manner`, the dict comprehension
`{phone: manner for manner, phones in manner_of_articulation_to_phones.items()
for phone in phones}` flattened in Python-dict insertion order.  The only
repeated keys in the source table (`ɓ`, `ɗ`, twice inside
`VoicedImplosives`) carry the same value, so the dict contains each key once
with that value. -/
def phone_to_manner : List (String × String) := [
  ("p", "Plosive"), ("b", "Plosive"), ("t", "Plosive"), ("d", "Plosive"),
  ("ʈ", "Plosive"), ("ɖ", "Plosive"), ("c", "Plosive"), ("ɟ", "Plosive"),
  ("k", "Plosive"), ("g", "Plosive"), ("ɡ", "Plosive"), ("q", "Plosive"),
  ("ʔ", "Plosive"), ("č", "Plosive"), ("ď", "Plosive"),
  ("m", "Nasal"), ("ɱ", "Nasal"), ("n", "Nasal"), ("ɲ", "Nasal"), ("ŋ", "Nasal"),
  ("r", "Trill"), ("R", "Trill"),
  ("ɾ", "Flap"), ("ɽ", "Flap"),
  ("β", "Fricative"), ("f", "Fricative"), ("v", "Fricative"), ("ð", "Fricative"),
  ("s", "Fricative"), ("z", "Fricative"), ("ʃ", "Fricative"), ("ʒ", "Fricative"),
  ("ʂ", "Fricative"), ("x", "Fricative"), ("ɣ", "Fricative"), ("ʁ", "Fricative"),
  ("ħ", "Fricative"), ("h", "Fricative"), ("ɦ", "Fricative"), ("ɕ", "Fricative"),
  ("ɬ", "LatFric"), ("ɮ", "LatFric"),
  ("ɹ", "Approximant"), ("ɻ", "Approximant"), ("j", "Approximant"),
  ("ɯ", "Approximant"), ("ɥ", "Approximant"),
  ("l", "LatApprox"), ("ʎ", "LatApprox"),
  ("i", "Vowels"), ("ɨ", "Vowels"), ("y", "Vowels"), ("u", "Vowels"),
  ("w", "Vowels"), ("ɪ", "Vowels"), ("e", "Vowels"), ("ę", "Vowels"),
  ("ë", "Vowels"), ("ø", "Vowels"), ("ə", "Vowels"), ("ɤ", "Vowels"),
  ("o", "Vowels"), ("ʊ", "Vowels"), ("ɛ", "Vowels"), ("œ", "Vowels"),
  ("ɜ", "Vowels"), ("ɔ", "Vowels"), ("æ", "Vowels"), ("ɐ", "Vowels"),
  ("a", "Vowels"), ("ɑ", "Vowels"), ("á", "Vowels"),
  ("ǀ", "Clicks"), ("ǃ", "Clicks"), ("ǁ", "Clicks"),
  ("ɗ", "VoicedImplosives"), ("ɓ", "VoicedImplosives"), ("ɠ", "VoicedImplosives")]

/-- `phonetic.py` `phone_to_place`, flattened in Python-dict insertion order
(no repeated keys in the source table). -/
def phone_to_place : List (String × String) := [
  ("p", "Bilabial"), ("b", "Bilabial"), ("m", "Bilabial"), ("β", "Bilabial"),
  ("ɓ", "Bilabial"),
  ("ɱ", "Labiodental"), ("f", "Labiodental"), ("v", "Labiodental"),
  ("ð", "Dental"), ("ǀ", "Dental"),
  ("t", "Alveolar"), ("d", "Alveolar"), ("n", "Alveolar"), ("r", "Alveolar"),
  ("ɾ", "Alveolar"), ("s", "Alveolar"), ("z", "Alveolar"), ("ɬ", "Alveolar"),
  ("ɮ", "Alveolar"), ("ɹ", "Alveolar"), ("l", "Alveolar"), ("ď", "Alveolar"),
  ("ʃ", "Postalveolar"), ("ʒ", "Postalveolar"), ("ǃ", "Postalveolar"),
  ("ʈ", "Retroflex"), ("ɖ", "Retroflex"), ("ɽ", "Retroflex"),
  ("ʂ", "Retroflex"), ("ɻ", "Retroflex"),
  ("c", "Palatal"), ("ɟ", "Palatal"), ("ɲ", "Palatal"), ("j", "Palatal"),
  ("ʎ", "Palatal"), ("č", "Palatal"),
  ("k", "Velar"), ("g", "Velar"), ("ɡ", "Velar"), ("ŋ", "Velar"),
  ("x", "Velar"), ("ɣ", "Velar"), ("ɯ", "Velar"), ("ɠ", "Velar"),
  ("q", "Uvular"), ("ʁ", "Uvular"), ("R", "Uvular"),
  ("ħ", "Pharyngeal"),
  ("ʔ", "Glottal"), ("h", "Glottal"), ("ɦ", "Glottal"),
  ("i", "Vow-Cl"), ("ɨ", "Vow-Cl"), ("y", "Vow-Cl"), ("u", "Vow-Cl"),
  ("w", "Vow-Cl"), ("ɪ", "Vow-Cl"),
  ("e", "Vow-Clm"), ("ë", "Vow-Clm"), ("ø", "Vow-Clm"), ("ə", "Vow-Clm"),
  ("ɤ", "Vow-Clm"), ("o", "Vow-Clm"), ("ʊ", "Vow-Clm"), ("ę", "Vow-Clm"),
  ("ɚ", "Vow-Clm"),
  ("ɛ", "Vow-Openm"), ("œ", "Vow-Openm"), ("ɜ", "Vow-Openm"),
  ("ɔ", "Vow-Openm"), ("æ", "Vow-Openm"), ("ɐ", "Vow-Openm"),
  ("a", "Vow-Open"), ("ɑ", "Vow-Open"), ("á", "Vow-Open"),
  ("ɕ", "Alveolo-Palatal"),
  ("ɗ", "Dental-Alveolar"),
  ("ɥ", "Voiced-Labial-Palatal")]

/-- The stress-mark stripping shared by `determine_place`, `determine_manner`
and `determine_base`: drop one leading stress mark `ˈ` when present. -/
def stripStress (phone : String) : String :=
  if pyStartsWith phone "ˈ" then String.mk (phone.data.drop 1) else phone

/-- `phonetic.py` `determine_place` generalized over its table parameter
(in the source, `phone_to_place=phone_to_place` is a default argument); the
loop `for phone_tok in phone_to_place: if phone.startswith(phone_tok): return
phone_to_place[phone_tok]` returns the value of the first key that is a
prefix of the (stress-stripped) phone. -/
def determine_place_with (table : List (String × String)) (phone : String) : String :=
  if phone = "*" then phone
  else
    let phone := stripStress phone
    match table.find? (fun kv => pyStartsWith phone kv.1) with
    | some kv => kv.2
    | none => "?"

/-- `phonetic.py` `determine_place` at its default table. -/
def determine_place (phone : String) : String := determine_place_with phone_to_place phone

/-- `phonetic.py` `determine_manner` generalized over its table parameter. -/
def determine_manner_with (table : List (String × String)) (phone : String) : String :=
  if phone = "*" then phone
  else
    let phone := stripStress phone
    match table.find? (fun kv => pyStartsWith phone kv.1) with
    | some kv => kv.2
    | none => "?"

/-- `phonetic.py` `determine_manner` at its default table. -/
def determine_manner (phone : String) : String := determine_manner_with phone_to_manner phone

/-- `phonetic.py` `PHONE_BASES = frozenset(phone_to_place).union(phone_to_manner)`:
the set of keys of both tables.  The iteration order of a `frozenset` is
unspecified, so we fix one enumeration of the set; the claim `C10` theorem
proves that `determine_base` does not depend on the enumeration order. -/
def PHONE_BASES : List String :=
  (phone_to_place.map Prod.fst ++ phone_to_manner.map Prod.fst).eraseDups

/-- `phonetic.py` `determine_base` generalized over its base-set enumeration
(in the source, `bases_=PHONE_BASES` is a default argument): the first base
in the enumeration that is a prefix of the (stress-stripped) phone. -/
def determine_base_with (bases : List String) (phone : String) : String :=
  if phone = "*" then phone
  else
    let phone := stripStress phone
    match bases.find? (fun base => pyStartsWith phone base) with
    | some base => base
    | none => "?"

/-- `phonetic.py` `determine_base` at its default base set. -/
def determine_base (phone : String) : String := determine_base_with PHONE_BASES phone

/-! ## `align.py`: utterance pairs, the error/confusion fold -/

/-- One element of the `sequence_pairs` input of `compute_confusions`:
a dict with keys `id`, `ref`, `hyp`, where the hypothesis may be missing
(`None`). -/
structure SeqPair where
  id : String
  ref : String
  hyp : Option String
deriving DecidableEq, Repr

/-- The running counters of the classification loop of `compute_confusions`:
the two `defaultdict`s `errors` and `confusions` (as total count functions;
a key absent from the defaultdict has count `0`) together with their key
insertion orders (Python dicts iterate in first-insertion order). -/
structure Tallies where
  err : String → String → Nat
  errKeys : List String
  conf : String → String → Nat
  confKeys : List (String × String)

/-- The state before any aligned pair has been consumed. -/
def emptyTallies : Tallies :=
  { err := fun _ _ => 0, errKeys := [], conf := fun _ _ => 0, confKeys := [] }

/-- `d[a][b] += 1` on a nested counter dictionary. -/
def bump (f : String → String → Nat) (a b : String) : String → String → Nat :=
  fun x y => if x = a ∧ y = b then f x y + 1 else f x y

/-- Record a dictionary key in first-insertion order: Python dicts keep the
position of the first insertion of a key. -/
def dictInsert {α : Type} [DecidableEq α] (l : List α) (x : α) : List α :=
  if x ∈ l then l else l ++ [x]

/-- The outer `errors` key touched by one aligned pair `(r, h)` (after the
assertion has excluded the both-gap case): `r` when `r` is real (first touched
by the `TOTAL_TRUE_COUNT` increment, then by the kind increment), else `h`
(touched by the `INSERTION` increment). -/
def touchedKey (r h : String) : String := if r = GAP_CHAR then h else r

/-- The `errors` updates performed for one aligned pair `(r, h)` in
`compute_confusions`:

if `ref` is real, add one to `TOTAL_TRUE_COUNT` of `errors[ref]`; then add one
to exactly one of: `OK` of `errors[ref]` when `ref == hyp`, `INSERTION` of
`errors[hyp]` when `ref` is the gap, `DELETION` of `errors[ref]` when `hyp`
is the gap, and `SUBSTITUTION` of `errors[ref]` otherwise.
-/
def classifyBump (e : String → String → Nat) (r h : String) : String → String → Nat :=
  let e1 := if r ≠ GAP_CHAR then bump e r "TOTAL_TRUE_COUNT" else e
  if r = h then bump e1 r "OK"
  else if r = GAP_CHAR then bump e1 h "INSERTION"
  else if h = GAP_CHAR then bump e1 r "DELETION"
  else bump e1 r "SUBSTITUTION"

/-- The whole loop body for one aligned pair (after the assertion):
`confusions[ref][hyp] += 1` plus the `errors` updates. -/
def tallyStep (t : Tallies) (r h : String) : Tallies :=
  { err := classifyBump t.err r h
    errKeys := dictInsert t.errKeys (touchedKey r h)
    conf := bump t.conf r h
    confKeys := dictInsert t.confKeys (r, h) }

/-- The classification loop over a (flattened) sequence of aligned pairs,
including the assertion `assert not (ref == GAP_CHAR and hyp == GAP_CHAR)`:
a both-gap pair aborts the computation (`AssertionError`), modelled by
`none`. -/
def processPairs : List (String × String) → Tallies → Option Tallies
  | [], t => some t
  | (r, h) :: ps, t =>
    if r = GAP_CHAR ∧ h = GAP_CHAR then none
    else processPairs ps (tallyStep t r h)

/-! ## `align.py`: the emitted tables -/

/-- One row of the per-corpus Error Table `pd.DataFrame(errors).T` with the
constant `LANG` column.  The five count cells are the only keys ever written
into the inner dictionaries; a cell the inner dictionary lacks becomes `NaN`
in the DataFrame, modelled as `none`. -/
structure ErrRow where
  token : String
  TOTAL_TRUE_COUNT : Option Nat
  OK : Option Nat
  INSERTION : Option Nat
  DELETION : Option Nat
  SUBSTITUTION : Option Nat
  LANG : String
deriving DecidableEq, Repr

/-- A DataFrame cell from a defaultdict counter: the key is present (with a
positive value) iff some increment touched it, absent (`NaN`) otherwise. -/
def cellOf (n : Nat) : Option Nat := if n = 0 then none else some n

/-- The Error Table row of one `errors` key. -/
def mkErrRow (t : Tallies) (lang s : String) : ErrRow :=
  { token := s
    TOTAL_TRUE_COUNT := cellOf (t.err s "TOTAL_TRUE_COUNT")
    OK := cellOf (t.err s "OK")
    INSERTION := cellOf (t.err s "INSERTION")
    DELETION := cellOf (t.err s "DELETION")
    SUBSTITUTION := cellOf (t.err s "SUBSTITUTION")
    LANG := lang }

/-- `pd.DataFrame(errors).T` plus the constant `LANG` column: one row per `errors`
key, in insertion order. -/
def errorTable (t : Tallies) (lang : String) : List ErrRow :=
  t.errKeys.map (mkErrRow t lang)

/-- One row of the per-corpus Confusion Table. -/
structure ConfRow where
  ref : String
  hyp : String
  count : Nat
  total_ref : Nat
  lang : String
deriving DecidableEq, Repr

/-- The outer-key iteration order of the nested `confusions` dictionary:
first occurrence order of the `ref` components. -/
def refOrder (confKeys : List (String × String)) : List String :=
  confKeys.foldl (fun acc p => dictInsert acc p.1) []

/-- The Confusion Table comprehension of `compute_confusions`:

one row per
observed `(ref, hyp)` pair carrying its count, the `TOTAL_TRUE_COUNT` of its
`ref` read back from the `errors` defaultdict (`0` when absent), and the
language tag, iterating the outer dictionary in `ref` first-insertion order and, within one
`ref`, the inner dictionary in `hyp` first-insertion order. -/
def confusionTable (t : Tallies) (lang : String) : List ConfRow :=
  (refOrder t.confKeys).flatMap fun r =>
    (t.confKeys.filter (fun p => p.1 = r)).map fun p =>
      { ref := p.1, hyp := p.2, count := t.conf p.1 p.2
        total_ref := t.err p.1 "TOTAL_TRUE_COUNT", lang := lang }

/-! ## `align.py`: `compute_confusions` -/

/-- The type of the external alignment primitive `kaldialign.align`:
`align(ref, hyp, gap) -> list of (ref_symbol, hyp_symbol) pairs`. -/
abbrev AlignFn := List String → List String → String → List (String × String)

/-- The `bper` transform of `compute_confusions`: keep the tokens whose base
is known (not the unknown sentinel `?`) and map each to its base. -/
def bperTokens (toks : List String) : List String :=
  (toks.filter fun p => decide (determine_base p ≠ "?")).map determine_base

/-- The `pter` transform of `compute_confusions`: concatenate all tokens and
re-split into one symbol per character. -/
def pterTokens (toks : List String) : List String :=
  (String.join toks).data.map fun c => String.mk [c]

/-- The per-text normalization of `compute_confusions`, applied identically
and independently to the reference and the hypothesis text: strip the ignore
pattern, whitespace-tokenize, then transform per the scoring method (`pter`
decomposes into characters, `bper` collapses to known bases dropping unknown
tokens, anything else — in particular the default `per` — keeps the tokens). -/
def normTokens (remove_pattern : List String) (scoring_method : String)
    (text : String) : List String :=
  let toks := pySplit (patternSub remove_pattern text)
  if scoring_method = "pter" then pterTokens toks
  else if scoring_method = "bper" then bperTokens toks
  else toks

/-- The alignment-collection loop of `compute_confusions`: pairs with a
missing hypothesis are skipped; both texts are normalized (`normTokens`)
independently; empty alignments are skipped. -/
def collectAlis (alignFn : AlignFn) (remove_pattern : List String)
    (scoring_method : String) : List SeqPair → List (List (String × String))
  | [] => []
  | item :: rest =>
    match item.hyp with
    | none => collectAlis alignFn remove_pattern scoring_method rest
    | some hyp0 =>
      let ref := normTokens remove_pattern scoring_method item.ref
      let hyp := normTokens remove_pattern scoring_method hyp0
      let ali := alignFn ref hyp GAP_CHAR
      if ali = [] then collectAlis alignFn remove_pattern scoring_method rest
      else ali :: collectAlis alignFn remove_pattern scoring_method rest

/-- `align.py` `compute_confusions(sequence_pairs, lang, ignore_symbols=None,
scoring_method)`, with its default arguments `ignore_symbols = None` and
`scoring_method = per`, and with the external `kaldialign.align` as an explicit
parameter.  Python exceptions (`TypeError` from `get_ignored_symbols_re` on
`ignore_symbols=None`, `AssertionError` from the both-gap assertion) appear
as `.error`.  The fallback branch of the source, `if remove_pattern is not
None ... else`, which strips the `<silence>` marker
(`stripSilenceFallback`), is unreachable because
`get_ignored_symbols_re` never returns `None`. -/
def compute_confusions (alignFn : AlignFn) (sequence_pairs : List SeqPair)
    (lang : String) (ignore_symbols : Option (List String))
    (scoring_method : String) :
    Except String (List ErrRow × List ConfRow) :=
  match get_ignored_symbols_re ignore_symbols with
  | .error e => .error e
  | .ok remove_pattern =>
    let alis := collectAlis alignFn remove_pattern scoring_method sequence_pairs
    match processPairs alis.flatten emptyTallies with
    | none => .error "AssertionError"
    | some t => .ok (errorTable t lang, confusionTable t lang)

/-! ## `align.py`: `join_ref_hyp` -/

/-- Keys of a Python dict modelled as an association list. -/
def keysOf (m : List (String × String)) : List String := m.map Prod.fst

/-- `dict.get(k)`: the value of the first matching key, else `None`. -/
def lookup? (m : List (String × String)) (k : String) : Option String :=
  (m.find? fun kv => kv.1 = k).map Prod.snd

/-- `align.py` `join_ref_hyp(id_to_ref, id_to_hyp)`: returns the warnings
logged (in order) and the joined sequence pairs, one per reference ID in
insertion order, with `hyp = id_to_hyp.get(id)`.  The dicts are modelled as
association lists whose keys are distinct, so the sizes of the Python sets
`ref_ids`, `hyp_ids` and their intersection are the lengths below. -/
def join_ref_hyp (id_to_ref id_to_hyp : List (String × String)) :
    List String × List SeqPair :=
  let refIds := keysOf id_to_ref
  let hypIds := keysOf id_to_hyp
  let d1 := refIds.length - (refIds.filter fun i => decide (i ∈ hypIds)).length
  let w1 := if d1 ≠ 0 then
      ["Found " ++ toString d1 ++ " missing IDs in the hypothesis set."] else []
  let d2 := hypIds.length - (hypIds.filter fun i => decide (i ∈ refIds)).length
  let w2 := if d2 ≠ 0 then
      ["Found " ++ toString d2 ++
        " missing IDs in the reference set (this could be a serious error)."] else []
  (w1 ++ w2,
   id_to_ref.map fun kv => { id := kv.1, ref := kv.2, hyp := lookup? id_to_hyp kv.1 })

/-! ## `discophone.py`: cross-experiment aggregation -/

/-- The experiment key `(tag, AM, LM, tok_type)`; `LM` is `None` for E2E
experiments. -/
structure ExpKey where
  tag : String
  AM : String
  LM : Option String
  tok_type : String
deriving DecidableEq, Repr

/-- Python f-string interpolation of an optional string: `None` prints as the
string `None`. -/
def showOpt : Option String → String
  | none => "None"
  | some s => s

/-- A row of the merged long-form Error Table of `aggregate_expts`: an
`ErrRow` (whose index became the `token` column) tagged with the experiment
identity columns. -/
structure AggErrRow where
  token : String
  TOTAL_TRUE_COUNT : Option Nat
  OK : Option Nat
  INSERTION : Option Nat
  DELETION : Option Nat
  SUBSTITUTION : Option Nat
  LANG : String
  SYSTEM : String
  AM : String
  LM : Option String
  TOKEN_TYPE : String
  EXP : String
deriving DecidableEq, Repr

/-- The tagging loop body of `aggregate_expts`: set the `SYSTEM`, `AM`, `LM`,
`TOKEN_TYPE` columns and the composite `EXP` column (the four key fields
joined with underscores, interpolated as f-strings) on every row of the table of one experiment. -/
def tagErrRow (k : ExpKey) (r : ErrRow) : AggErrRow :=
  { token := r.token
    TOTAL_TRUE_COUNT := r.TOTAL_TRUE_COUNT
    OK := r.OK
    INSERTION := r.INSERTION
    DELETION := r.DELETION
    SUBSTITUTION := r.SUBSTITUTION
    LANG := r.LANG
    SYSTEM := k.tag
    AM := k.AM
    LM := k.LM
    TOKEN_TYPE := k.tok_type
    EXP := k.tag ++ "_" ++ k.AM ++ "_" ++ showOpt k.LM ++ "_" ++ k.tok_type }

/-- The zero-fill step of `aggregate_expts`, which is row-local: for a row
with a present `TOTAL_TRUE_COUNT`, each absent (`NaN`) cell among `OK`,
`DELETION`, `SUBSTITUTION`, `INSERTION` becomes `0`. -/
def fillRow (r : AggErrRow) : AggErrRow :=
  if r.TOTAL_TRUE_COUNT.isSome then
    { r with
      OK := if r.OK.isSome then r.OK else some 0
      DELETION := if r.DELETION.isSome then r.DELETION else some 0
      SUBSTITUTION := if r.SUBSTITUTION.isSome then r.SUBSTITUTION else some 0
      INSERTION := if r.INSERTION.isSome then r.INSERTION else some 0 }
  else r

/-- `discophone.py` `aggregate_expts(expt_dfs)`.  The input dict from
experiment keys to the per-language Error Tables of that experiment is
modelled as an association list in dict insertion order.  Steps, as in the
source: per key, `reset_index`/rename the index to the `token` column
(already explicit here) and concatenate the per-language tables; drop rows
whose token is in `IGNORED_SYMBOLS`; tag each row with the experiment
identity; concatenate everything in key order; zero-fill missing error-kind
cells of rows with a present `TOTAL_TRUE_COUNT`; finally drop rows whose
token contains the markup character (pandas `str.contains` with the
single-character pattern `<` is containment of that character). -/
def aggregate_expts (expt_dfs : List (ExpKey × List (List ErrRow))) :
    List AggErrRow :=
  let merged := expt_dfs.map fun kv => (kv.1, kv.2.flatten)
  let filtered := merged.map fun kv =>
    (kv.1, kv.2.filter fun r => decide (r.token ∉ IGNORED_SYMBOLS))
  let tagged := filtered.map fun kv => kv.2.map (tagErrRow kv.1)
  let df := tagged.flatten
  let df := df.map fillRow
  df.filter fun r => !(r.token.data.contains '<')

/-- A row of the merged long-form Confusion Table of
`aggregate_confusions`. -/
structure AggConfRow where
  ref : String
  hyp : String
  count : Nat
  total_ref : Nat
  lang : String
  SYSTEM : String
  AM : String
  LM : Option String
  TOKEN_TYPE : String
  EXP : String
deriving DecidableEq, Repr

/-- The tagging loop body of `aggregate_confusions`. -/
def tagConfRow (k : ExpKey) (r : ConfRow) : AggConfRow :=
  { ref := r.ref, hyp := r.hyp, count := r.count, total_ref := r.total_ref
    lang := r.lang
    SYSTEM := k.tag
    AM := k.AM
    LM := k.LM
    TOKEN_TYPE := k.tok_type
    EXP := k.tag ++ "_" ++ k.AM ++ "_" ++ showOpt k.LM ++ "_" ++ k.tok_type }

/-- `discophone.py` `aggregate_confusions(conf_dfs)`: for each key concatenate the
per-language Confusion Tables of that key, tag rows with the experiment identity, and
concatenate everything in key order (the ignore-symbol filter and the
markup filter are commented out in the source). -/
def aggregate_confusions (conf_dfs : List (ExpKey × List (List ConfRow))) :
    List AggConfRow :=
  let merged := conf_dfs.map fun kv => (kv.1, kv.2.flatten)
  (merged.map fun kv => kv.2.map (tagConfRow kv.1)).flatten

/-! ## Derived definitions used in theorem statements and proofs -/

/-- The number of increments that one aligned pair `(r, h)` contributes to the
`errors` cell `(s, k)`; mirrors the branch structure of `classifyBump`. -/
def bumpCount (r h s k : String) : Nat :=
  (if r ≠ GAP_CHAR then (if s = r ∧ k = "TOTAL_TRUE_COUNT" then 1 else 0) else 0) +
  (if r = h then (if s = r ∧ k = "OK" then 1 else 0)
   else if r = GAP_CHAR then (if s = h ∧ k = "INSERTION" then 1 else 0)
   else if h = GAP_CHAR then (if s = r ∧ k = "DELETION" then 1 else 0)
   else (if s = r ∧ k = "SUBSTITUTION" then 1 else 0))

/-- The loop over a list of pairs as a left fold of `tallyStep`. -/
def foldTallies (ps : List (String × String)) (t : Tallies) : Tallies :=
  ps.foldl (fun a p => tallyStep a p.1 p.2) t

/-- The `TOTAL_TRUE_COUNT` of a symbol read off an Error Table: the value of
the cell in the row of that symbol, `0` when the cell or the row is absent. -/
def errTableTotal (tab : List ErrRow) (s : String) : Nat :=
  match tab.find? (fun row => decide (row.token = s)) with
  | some row => row.TOTAL_TRUE_COUNT.getD 0
  | none => 0

/-! ## Supporting lemmas: the counter fold in closed form -/

theorem bump_apply (f : String → String → Nat) (a b x y : String) :
    bump f a b x y = f x y + (if x = a ∧ y = b then 1 else 0) := by
  simp only [bump]
  split <;> omega

theorem classifyBump_apply (e : String → String → Nat) (r h s k : String) :
    classifyBump e r h s k = e s k + bumpCount r h s k := by
  simp only [classifyBump, bumpCount]
  split_ifs <;> simp only [bump_apply] <;> split_ifs <;> omega

theorem processPairs_eq_some {ps : List (String × String)} {t t' : Tallies} :
    processPairs ps t = some t' ↔
      (∀ p ∈ ps, ¬(p.1 = GAP_CHAR ∧ p.2 = GAP_CHAR)) ∧ t' = foldTallies ps t := by
  induction ps generalizing t with
  | nil =>
    simp [processPairs, foldTallies, eq_comm]
  | cons p ps ih =>
    obtain ⟨r, h⟩ := p
    simp only [processPairs, List.mem_cons]
    split
    next hc =>
      constructor
      · intro habs; simp at habs
      · rintro ⟨hall, -⟩
        exact absurd hc (hall (r, h) (Or.inl rfl))
    next hc =>
      rw [ih]
      constructor
      · rintro ⟨hall, ht⟩
        refine ⟨?_, ?_⟩
        · rintro q (rfl | hq)
          · exact hc
          · exact hall q hq
        · simpa [foldTallies] using ht
      · rintro ⟨hall, ht⟩
        refine ⟨fun q hq => hall q (Or.inr hq), ?_⟩
        simpa [foldTallies] using ht

theorem processPairs_isSome {ps : List (String × String)} {t : Tallies}
    (hgap : ∀ p ∈ ps, ¬(p.1 = GAP_CHAR ∧ p.2 = GAP_CHAR)) :
    processPairs ps t = some (foldTallies ps t) :=
  processPairs_eq_some.mpr ⟨hgap, rfl⟩

theorem foldTallies_err (ps : List (String × String)) (t : Tallies) (s k : String) :
    (foldTallies ps t).err s k
      = t.err s k + (ps.map fun p => bumpCount p.1 p.2 s k).sum := by
  induction ps generalizing t with
  | nil => simp [foldTallies]
  | cons p ps ih =>
    simp only [foldTallies, List.foldl_cons, List.map_cons, List.sum_cons]
    rw [show List.foldl (fun a q => tallyStep a q.1 q.2) (tallyStep t p.1 p.2) ps
          = foldTallies ps (tallyStep t p.1 p.2) from rfl, ih]
    simp only [tallyStep, classifyBump_apply]
    omega

theorem foldTallies_conf (ps : List (String × String)) (t : Tallies) (a b : String) :
    (foldTallies ps t).conf a b
      = t.conf a b + (ps.map fun p => if a = p.1 ∧ b = p.2 then 1 else 0).sum := by
  induction ps generalizing t with
  | nil => simp [foldTallies]
  | cons p ps ih =>
    simp only [foldTallies, List.foldl_cons, List.map_cons, List.sum_cons]
    rw [show List.foldl (fun a q => tallyStep a q.1 q.2) (tallyStep t p.1 p.2) ps
          = foldTallies ps (tallyStep t p.1 p.2) from rfl, ih]
    simp only [tallyStep, bump_apply]
    omega

theorem foldTallies_confKeys (ps : List (String × String)) (t : Tallies) :
    (foldTallies ps t).confKeys = ps.foldl (fun l p => dictInsert l p) t.confKeys := by
  induction ps generalizing t with
  | nil => rfl
  | cons p ps ih =>
    simp only [foldTallies, List.foldl_cons] at *
    exact ih (tallyStep t p.1 p.2)

theorem foldTallies_errKeys (ps : List (String × String)) (t : Tallies) :
    (foldTallies ps t).errKeys
      = ps.foldl (fun l p => dictInsert l (touchedKey p.1 p.2)) t.errKeys := by
  induction ps generalizing t with
  | nil => rfl
  | cons p ps ih =>
    simp only [foldTallies, List.foldl_cons] at *
    exact ih (tallyStep t p.1 p.2)

/-! ## Supporting lemmas: first-insertion key folds -/

theorem mem_dictInsert {α : Type} [DecidableEq α] (l : List α) (x y : α) :
    y ∈ dictInsert l x ↔ y ∈ l ∨ y = x := by
  simp only [dictInsert]
  split
  · constructor
    · exact Or.inl
    · rintro (hy | rfl)
      · exact hy
      · assumption
  · simp

theorem nodup_dictInsert {α : Type} [DecidableEq α] (l : List α) (x : α)
    (hl : l.Nodup) : (dictInsert l x).Nodup := by
  simp only [dictInsert]
  split
  · exact hl
  · simp [List.nodup_append, hl, *]

theorem mem_foldl_dictInsert {α β : Type} [DecidableEq β] (f : α → β) :
    ∀ (ps : List α) (K : List β) (x : β),
      x ∈ ps.foldl (fun l p => dictInsert l (f p)) K ↔ x ∈ K ∨ ∃ p ∈ ps, f p = x := by
  intro ps
  induction ps with
  | nil => simp
  | cons p ps ih =>
    intro K x
    simp only [List.foldl_cons, ih, mem_dictInsert, List.mem_cons]
    constructor
    · rintro ((hK | rfl) | hps)
      · exact Or.inl hK
      · exact Or.inr ⟨p, Or.inl rfl, rfl⟩
      · obtain ⟨q, hq, hfq⟩ := hps
        exact Or.inr ⟨q, Or.inr hq, hfq⟩
    · rintro (hK | ⟨q, (rfl | hq), hfq⟩)
      · exact Or.inl (Or.inl hK)
      · exact Or.inl (Or.inr hfq.symm)
      · exact Or.inr ⟨q, hq, hfq⟩

theorem nodup_foldl_dictInsert {α β : Type} [DecidableEq β] (f : α → β) :
    ∀ (ps : List α) (K : List β), K.Nodup →
      (ps.foldl (fun l p => dictInsert l (f p)) K).Nodup := by
  intro ps
  induction ps with
  | nil => exact fun K hK => hK
  | cons p ps ih =>
    intro K hK
    exact ih _ (nodup_dictInsert _ _ hK)

/-! ## Supporting lemmas: indicator sums -/

theorem sum_map_add {α : Type} (l : List α) (f g : α → Nat) :
    (l.map fun x => f x + g x).sum = (l.map f).sum + (l.map g).sum := by
  induction l with
  | nil => rfl
  | cons a l ih => simp [ih]; omega

theorem sum_map_ind_nodup {α : Type} [DecidableEq α] (K : List α) (hK : K.Nodup)
    (a : α) :
    (K.map fun x => if x = a then (1 : Nat) else 0).sum = if a ∈ K then 1 else 0 := by
  induction K with
  | nil => rfl
  | cons b K ih =>
    simp only [List.nodup_cons] at hK
    simp only [List.map_cons, List.sum_cons, ih hK.2, List.mem_cons]
    by_cases hba : b = a
    · subst hba
      simp [hK.1]
    · simp [hba, Ne.symm hba]

/-- Summing the multiplicities (inside `ps`) of the distinct elements listed in
`K` that satisfy `q` counts the elements of `ps` satisfying `q`, provided `K`
covers `ps` without duplicates. -/
theorem sum_map_count_filter {α : Type} [DecidableEq α] :
    ∀ (ps K : List α), K.Nodup → (∀ p ∈ ps, p ∈ K) → ∀ (q : α → Bool),
      ((K.filter q).map fun x => (ps.map fun y => if x = y then (1 : Nat) else 0).sum).sum
        = (ps.map fun y => if q y then (1 : Nat) else 0).sum := by
  intro ps
  induction ps with
  | nil =>
    intro K _ _ q
    simp
  | cons y ps ih =>
    intro K hK hcov q
    have hcov' : ∀ p ∈ ps, p ∈ K := fun p hp => hcov p (List.mem_cons_of_mem _ hp)
    simp only [List.map_cons, List.sum_cons]
    have hsplit :
        ((K.filter q).map fun x =>
            (if x = y then (1 : Nat) else 0) + (ps.map fun z => if x = z then (1 : Nat) else 0).sum).sum
          = ((K.filter q).map fun x => if x = y then (1 : Nat) else 0).sum
            + ((K.filter q).map fun x => (ps.map fun z => if x = z then (1 : Nat) else 0).sum).sum :=
      sum_map_add _ _ _
    rw [hsplit, ih K hK hcov' q,
      sum_map_ind_nodup (K.filter q) (hK.filter q) y]
    have hyK : y ∈ K := hcov y (List.mem_cons_self y ps)
    by_cases hqy : q y = true
    · simp [List.mem_filter, hyK, hqy]
    · simp [List.mem_filter, hqy]

/-! ## Supporting lemmas: per-pair counting facts -/

theorem bumpCount_total {r h s : String} (hs : s ≠ GAP_CHAR) :
    bumpCount r h s "TOTAL_TRUE_COUNT" = if s = r then 1 else 0 := by
  simp only [bumpCount]
  split_ifs <;> simp_all

theorem bumpCount_gap_total (r h : String) :
    bumpCount r h GAP_CHAR "TOTAL_TRUE_COUNT" = 0 := by
  simp only [bumpCount]
  split_ifs <;> simp_all

theorem bumpCount_gap_total_left (h s : String) :
    bumpCount GAP_CHAR h s "TOTAL_TRUE_COUNT" = 0 := by
  simp [bumpCount, show ("TOTAL_TRUE_COUNT" : String) ≠ "OK" from by decide,
    show ("TOTAL_TRUE_COUNT" : String) ≠ "INSERTION" from by decide,
    show ("TOTAL_TRUE_COUNT" : String) ≠ "DELETION" from by decide,
    show ("TOTAL_TRUE_COUNT" : String) ≠ "SUBSTITUTION" from by decide]

/-- Per aligned pair, the `TOTAL_TRUE_COUNT` contribution to a real symbol
equals the sum of its `OK`, `SUBSTITUTION` and `DELETION` contributions. -/
theorem bumpCount_balance {r h s : String} (hgap : ¬(r = GAP_CHAR ∧ h = GAP_CHAR))
    (hs : s ≠ GAP_CHAR) :
    bumpCount r h s "TOTAL_TRUE_COUNT"
      = bumpCount r h s "OK" + bumpCount r h s "SUBSTITUTION"
        + bumpCount r h s "DELETION" := by
  simp only [bumpCount]
  split_ifs <;> simp_all

/-- Every `errors` increment of a pair goes to the key touched by that pair. -/
theorem bumpCount_ne_zero_touched {r h s k : String}
    (hgap : ¬(r = GAP_CHAR ∧ h = GAP_CHAR)) (hne : bumpCount r h s k ≠ 0) :
    touchedKey r h = s := by
  simp only [bumpCount, touchedKey] at *
  split_ifs at hne ⊢ <;> simp_all

theorem touchedKey_ne_gap {r h : String} (hgap : ¬(r = GAP_CHAR ∧ h = GAP_CHAR)) :
    touchedKey r h ≠ GAP_CHAR := by
  unfold touchedKey
  split
  · exact fun hh => hgap ⟨‹r = GAP_CHAR›, hh⟩
  · assumption

/-! ## Supporting lemmas: the state reached from the empty state -/

theorem err_from_empty (ps : List (String × String)) (s k : String) :
    (foldTallies ps emptyTallies).err s k
      = (ps.map fun p => bumpCount p.1 p.2 s k).sum := by
  simpa [emptyTallies] using foldTallies_err ps emptyTallies s k

theorem conf_from_empty (ps : List (String × String)) (a b : String) :
    (foldTallies ps emptyTallies).conf a b
      = (ps.map fun p => if a = p.1 ∧ b = p.2 then 1 else 0).sum := by
  simpa [emptyTallies] using foldTallies_conf ps emptyTallies a b

theorem mem_errKeys_iff (ps : List (String × String)) (s : String) :
    s ∈ (foldTallies ps emptyTallies).errKeys
      ↔ ∃ p ∈ ps, touchedKey p.1 p.2 = s := by
  rw [foldTallies_errKeys]
  simpa [emptyTallies] using
    mem_foldl_dictInsert (fun p : String × String => touchedKey p.1 p.2) ps [] s

theorem mem_confKeys_iff (ps : List (String × String)) (q : String × String) :
    q ∈ (foldTallies ps emptyTallies).confKeys ↔ q ∈ ps := by
  rw [foldTallies_confKeys]
  have := mem_foldl_dictInsert (fun p : String × String => p) ps [] q
  simpa [emptyTallies] using this

theorem nodup_confKeys (ps : List (String × String)) :
    (foldTallies ps emptyTallies).confKeys.Nodup := by
  rw [foldTallies_confKeys]
  exact nodup_foldl_dictInsert (fun p : String × String => p) ps [] List.nodup_nil

theorem err_eq_zero_of_not_touched {ps : List (String × String)} {s : String}
    (hgap : ∀ p ∈ ps, ¬(p.1 = GAP_CHAR ∧ p.2 = GAP_CHAR))
    (hs : s ∉ (foldTallies ps emptyTallies).errKeys) (k : String) :
    (foldTallies ps emptyTallies).err s k = 0 := by
  rw [err_from_empty]
  apply List.sum_eq_zero
  intro x hx
  obtain ⟨p, hp, rfl⟩ := List.mem_map.mp hx
  by_contra hne
  exact hs ((mem_errKeys_iff ps s).mpr ⟨p, hp, bumpCount_ne_zero_touched (hgap p hp) hne⟩)

theorem gap_not_mem_errKeys {ps : List (String × String)}
    (hgap : ∀ p ∈ ps, ¬(p.1 = GAP_CHAR ∧ p.2 = GAP_CHAR)) :
    GAP_CHAR ∉ (foldTallies ps emptyTallies).errKeys := by
  rw [mem_errKeys_iff]
  rintro ⟨p, hp, ht⟩
  exact touchedKey_ne_gap (hgap p hp) ht

/-! ## Supporting lemmas: reading the tables back -/

theorem cellOf_getD (n : Nat) : (cellOf n).getD 0 = n := by
  unfold cellOf
  split <;> simp_all

theorem find?_eq_self_of_mem {s : String} :
    ∀ {K : List String}, s ∈ K → K.find? (fun x => decide (x = s)) = some s := by
  intro K
  induction K with
  | nil => intro h; cases h
  | cons a K ih =>
    intro hmem
    by_cases has : a = s
    · subst has
      simp [List.find?_cons]
    · rcases List.mem_cons.mp hmem with rfl | hK
      · exact absurd rfl has
      · simpa [List.find?_cons, has] using ih hK

theorem errorTable_find? {t : Tallies} {lang s : String}
    (hmem : s ∈ t.errKeys) :
    (errorTable t lang).find? (fun row => decide (row.token = s))
      = some (mkErrRow t lang s) := by
  unfold errorTable
  rw [List.find?_map]
  have hcomp : ((fun row : ErrRow => decide (row.token = s)) ∘ mkErrRow t lang)
      = fun x => decide (x = s) := rfl
  rw [hcomp, find?_eq_self_of_mem hmem]
  rfl

theorem errorTable_find?_none {t : Tallies} {lang s : String}
    (hmem : s ∉ t.errKeys) :
    (errorTable t lang).find? (fun row => decide (row.token = s)) = none := by
  apply List.find?_eq_none.mpr
  intro row hrow
  obtain ⟨x, hx, rfl⟩ := List.mem_map.mp hrow
  simp only [mkErrRow, decide_eq_true_eq]
  intro hxs
  exact hmem (hxs ▸ hx)

theorem errTableTotal_eq {ps : List (String × String)} {lang s : String}
    (hgap : ∀ p ∈ ps, ¬(p.1 = GAP_CHAR ∧ p.2 = GAP_CHAR)) :
    errTableTotal (errorTable (foldTallies ps emptyTallies) lang) s
      = (foldTallies ps emptyTallies).err s "TOTAL_TRUE_COUNT" := by
  by_cases hmem : s ∈ (foldTallies ps emptyTallies).errKeys
  · rw [errTableTotal, errorTable_find? hmem]
    simp [mkErrRow, cellOf_getD]
  · rw [errTableTotal, errorTable_find?_none hmem]
    exact (err_eq_zero_of_not_touched hgap hmem _).symm

/-! ## Supporting lemmas: the shape of the Confusion Table -/

theorem confusionTable_mem {t : Tallies} {lang : String} {row : ConfRow}
    (hrow : row ∈ confusionTable t lang) :
    ∃ p ∈ t.confKeys,
      row = { ref := p.1, hyp := p.2, count := t.conf p.1 p.2
              total_ref := t.err p.1 "TOTAL_TRUE_COUNT", lang := lang } := by
  unfold confusionTable at hrow
  obtain ⟨r, -, hin⟩ := List.mem_flatMap.mp hrow
  obtain ⟨p, hp, rfl⟩ := List.mem_map.mp hin
  exact ⟨p, (List.mem_filter.mp hp).1, rfl⟩

theorem refOrder_nodup (ck : List (String × String)) : (refOrder ck).Nodup :=
  nodup_foldl_dictInsert (fun p : String × String => p.1) ck [] List.nodup_nil

theorem refOrder_cover {ck : List (String × String)} {p : String × String}
    (hp : p ∈ ck) : p.1 ∈ refOrder ck :=
  (mem_foldl_dictInsert (fun p : String × String => p.1) ck [] p.1).mpr
    (Or.inr ⟨p, hp, rfl⟩)

theorem refOrder_mem {ck : List (String × String)} {s : String}
    (hs : s ∈ refOrder ck) : ∃ p ∈ ck, p.1 = s := by
  rcases (mem_foldl_dictInsert (fun p : String × String => p.1) ck [] s).mp hs with h | h
  · cases h
  · exact h

theorem flatMap_blocks_filter (ck : List (String × String))
    (g : String × String → ConfRow) (hg : ∀ p, (g p).ref = p.1) (s : String) :
    ∀ (R : List String), R.Nodup →
      (s ∈ R ∨ ck.filter (fun p => decide (p.1 = s)) = []) →
      ((R.flatMap fun r => (ck.filter fun p => decide (p.1 = r)).map g).filter
          fun row => decide (row.ref = s))
        = (ck.filter fun p => decide (p.1 = s)).map g := by
  intro R
  induction R with
  | nil =>
    intro _ hs
    rcases hs with h | h
    · cases h
    · simp [h]
  | cons r R ih =>
    intro hnd hs
    have hnd' := (List.nodup_cons.mp hnd).2
    have hrR : r ∉ R := (List.nodup_cons.mp hnd).1
    rw [List.flatMap_cons, List.filter_append]
    by_cases hrs : r = s
    · subst hrs
      have h1 : ((ck.filter fun p => decide (p.1 = r)).map g).filter
          (fun row => decide (row.ref = r)) = (ck.filter fun p => decide (p.1 = r)).map g := by
        apply List.filter_eq_self.mpr
        intro row hrow
        obtain ⟨p, hp, rfl⟩ := List.mem_map.mp hrow
        have : p.1 = r := by simpa using (List.mem_filter.mp hp).2
        simp [hg, this]
      have h2 : ((R.flatMap fun r' => (ck.filter fun p => decide (p.1 = r')).map g).filter
          fun row => decide (row.ref = r)) = [] := by
        apply List.filter_eq_nil_iff.mpr
        intro row hrow
        obtain ⟨r', hr', hin⟩ := List.mem_flatMap.mp hrow
        obtain ⟨p, hp, rfl⟩ := List.mem_map.mp hin
        have hpr : p.1 = r' := by simpa using (List.mem_filter.mp hp).2
        simp only [hg, hpr, decide_eq_true_eq]
        rintro rfl
        exact hrR hr'
      rw [h1, h2, List.append_nil]
    · have h1 : ((ck.filter fun p => decide (p.1 = r)).map g).filter
          (fun row => decide (row.ref = s)) = [] := by
        apply List.filter_eq_nil_iff.mpr
        intro row hrow
        obtain ⟨p, hp, rfl⟩ := List.mem_map.mp hrow
        have : p.1 = r := by simpa using (List.mem_filter.mp hp).2
        simp [hg, this, hrs]
      have hs' : s ∈ R ∨ ck.filter (fun p => decide (p.1 = s)) = [] := by
        rcases hs with h | h
        · rcases List.mem_cons.mp h with rfl | hR
          · exact absurd rfl hrs
          · exact Or.inl hR
        · exact Or.inr h
      rw [h1, ih hnd' hs', List.nil_append]

theorem confusionTable_filter (t : Tallies) (lang s : String) :
    (confusionTable t lang).filter (fun row => decide (row.ref = s))
      = (t.confKeys.filter fun p => decide (p.1 = s)).map fun p =>
          ({ ref := p.1, hyp := p.2, count := t.conf p.1 p.2
             total_ref := t.err p.1 "TOTAL_TRUE_COUNT", lang := lang } : ConfRow) := by
  unfold confusionTable
  apply flatMap_blocks_filter _ _ (fun p => rfl)
  · exact refOrder_nodup t.confKeys
  · by_cases hs : ∃ p ∈ t.confKeys, p.1 = s
    · obtain ⟨p, hp, rfl⟩ := hs
      exact Or.inl (refOrder_cover hp)
    · refine Or.inr (List.filter_eq_nil_iff.mpr fun p hp => ?_)
      simp only [decide_eq_true_eq]
      exact fun hps => hs ⟨p, hp, hps⟩

/-! ## Supporting lemmas: unpacking a successful `compute_confusions` run -/

theorem compute_confusions_ok {aF : AlignFn} {pairs : List SeqPair} {lang : String}
    {ig : Option (List String)} {sm : String} {errT : List ErrRow}
    {confT : List ConfRow}
    (hok : compute_confusions aF pairs lang ig sm = .ok (errT, confT)) :
    ∃ syms, ig = some syms ∧
      (∀ p ∈ (collectAlis aF syms sm pairs).flatten,
          ¬(p.1 = GAP_CHAR ∧ p.2 = GAP_CHAR)) ∧
      errT = errorTable
        (foldTallies (collectAlis aF syms sm pairs).flatten emptyTallies) lang ∧
      confT = confusionTable
        (foldTallies (collectAlis aF syms sm pairs).flatten emptyTallies) lang := by
  cases ig with
  | none => simp [compute_confusions, get_ignored_symbols_re] at hok
  | some syms =>
    refine ⟨syms, rfl, ?_⟩
    simp only [compute_confusions, get_ignored_symbols_re] at hok
    rcases hps : processPairs (collectAlis aF syms sm pairs).flatten emptyTallies
      with - | t
    · rw [hps] at hok
      simp at hok
    · rw [hps] at hok
      obtain ⟨hgap, hfold⟩ := processPairs_eq_some.mp hps
      simp only [Except.ok.injEq, Prod.mk.injEq] at hok
      exact ⟨hgap, hfold ▸ hok.1.symm, hfold ▸ hok.2.symm⟩

/-! ## Supporting lemmas: the two counting invariants over the fold -/

theorem fold_total_balance {ps : List (String × String)}
    (hgap : ∀ p ∈ ps, ¬(p.1 = GAP_CHAR ∧ p.2 = GAP_CHAR)) {s : String}
    (hs : s ≠ GAP_CHAR) :
    (foldTallies ps emptyTallies).err s "TOTAL_TRUE_COUNT"
      = (foldTallies ps emptyTallies).err s "OK"
        + (foldTallies ps emptyTallies).err s "SUBSTITUTION"
        + (foldTallies ps emptyTallies).err s "DELETION" := by
  simp only [err_from_empty]
  rw [List.map_congr_left
    (fun p hp => bumpCount_balance (hgap p hp) hs),
    sum_map_add ps
      (fun p => bumpCount p.1 p.2 s "OK" + bumpCount p.1 p.2 s "SUBSTITUTION")
      (fun p => bumpCount p.1 p.2 s "DELETION"),
    sum_map_add ps (fun p => bumpCount p.1 p.2 s "OK")
      (fun p => bumpCount p.1 p.2 s "SUBSTITUTION")]

theorem ind_pair_eq (p y : String × String) :
    (if p.1 = y.1 ∧ p.2 = y.2 then (1 : Nat) else 0) = if p = y then 1 else 0 := by
  by_cases h : p = y
  · subst h; simp
  · rw [if_neg h, if_neg]
    rintro ⟨h1, h2⟩
    exact h (Prod.ext h1 h2)

theorem fold_conf_sum {ps : List (String × String)} {s : String}
    (hs : s ≠ GAP_CHAR) (lang : String) :
    (((confusionTable (foldTallies ps emptyTallies) lang).filter
        (fun row => decide (row.ref = s))).map (fun row => row.count)).sum
      = (foldTallies ps emptyTallies).err s "TOTAL_TRUE_COUNT" := by
  rw [confusionTable_filter, List.map_map]
  have hcomp : ((fun row : ConfRow => row.count) ∘ fun p : String × String =>
      ({ ref := p.1, hyp := p.2,
         count := (foldTallies ps emptyTallies).conf p.1 p.2,
         total_ref := (foldTallies ps emptyTallies).err p.1 "TOTAL_TRUE_COUNT",
         lang := lang } : ConfRow))
      = fun p : String × String => (foldTallies ps emptyTallies).conf p.1 p.2 := rfl
  rw [hcomp,
    List.map_congr_left (fun p _ => conf_from_empty ps p.1 p.2),
    List.map_congr_left (fun p _ => congrArg List.sum
      (List.map_congr_left (fun y _ => ind_pair_eq p y))),
    sum_map_count_filter ps (foldTallies ps emptyTallies).confKeys
      (nodup_confKeys ps)
      (fun p hp => (mem_confKeys_iff ps p).mpr hp)
      (fun p => decide (p.1 = s)),
    err_from_empty,
    List.map_congr_left (fun p (hp : p ∈ ps) => bumpCount_total (r := p.1) (h := p.2) hs)]
  apply congrArg List.sum
  apply List.map_congr_left
  intro y _
  by_cases hys : y.1 = s
  · simp [hys]
  · simp only [hys]
    exact (if_neg fun h => hys h.symm).symm

/-! ## Claim theorems -/

/-- C1: for every real (non-gap) reference symbol appearing in the Error Table
produced by `compute_confusions` on any list of utterance pairs, the
accumulated counts satisfy
`TOTAL_TRUE_COUNT = OK + SUBSTITUTION + DELETION`, where absent cells count
as `0`. -/
theorem C1_error_table_total_balance (aF : AlignFn) (pairs : List SeqPair)
    (lang : String) (ig : Option (List String)) (sm : String)
    (errT : List ErrRow) (confT : List ConfRow)
    (hok : compute_confusions aF pairs lang ig sm = .ok (errT, confT)) :
    ∀ row ∈ errT, row.token ≠ GAP_CHAR →
      row.TOTAL_TRUE_COUNT.getD 0
        = row.OK.getD 0 + row.SUBSTITUTION.getD 0 + row.DELETION.getD 0 := by
  obtain ⟨syms, -, hgap, herr, -⟩ := compute_confusions_ok hok
  subst herr
  intro row hrow htok
  unfold errorTable at hrow
  obtain ⟨x, hx, rfl⟩ := List.mem_map.mp hrow
  simp only [mkErrRow] at htok ⊢
  rw [cellOf_getD, cellOf_getD, cellOf_getD, cellOf_getD]
  exact fold_total_balance hgap htok

/-- Witness for C1: a concrete two-utterance-symbol run; the `b` row has
`TOTAL_TRUE_COUNT = 1 = OK + SUBSTITUTION + DELETION = 0 + 1 + 0`. -/
theorem C1_witness :
    (ErrRow.mk "b" (some 1) none none none (some 1) "L").TOTAL_TRUE_COUNT.getD 0
      = (ErrRow.mk "b" (some 1) none none none (some 1) "L").OK.getD 0
        + (ErrRow.mk "b" (some 1) none none none (some 1) "L").SUBSTITUTION.getD 0
        + (ErrRow.mk "b" (some 1) none none none (some 1) "L").DELETION.getD 0 :=
  C1_error_table_total_balance (fun r h _ => r.zip h)
    [⟨"u1", "a b a", some "a c a"⟩] "L" (some []) "per"
    [⟨"a", some 2, some 2, none, none, none, "L"⟩,
     ⟨"b", some 1, none, none, none, some 1, "L"⟩]
    [⟨"a", "a", 2, 2, "L"⟩, ⟨"b", "c", 1, 1, "L"⟩]
    rfl
    (ErrRow.mk "b" (some 1) none none none (some 1) "L")
    (by decide) (by decide)

/-- C5: in the tables produced by `compute_confusions`, every Confusion Table
row carries as `total_ref` the `TOTAL_TRUE_COUNT` of its `ref` symbol in the
Error Table; for every real (non-gap) symbol the counts of its confusion rows
sum to that `total_ref`; the gap marker is never an Error Table row (insertion
rows are keyed under `ref = *` and contribute to no real symbol), and rows
with `ref = *` carry `total_ref = 0`. -/
theorem C5_confusion_table_consistency (aF : AlignFn) (pairs : List SeqPair)
    (lang : String) (ig : Option (List String)) (sm : String)
    (errT : List ErrRow) (confT : List ConfRow)
    (hok : compute_confusions aF pairs lang ig sm = .ok (errT, confT)) :
    (∀ row ∈ confT, row.total_ref = errTableTotal errT row.ref)
    ∧ (∀ s, s ≠ GAP_CHAR →
        ((confT.filter fun row => decide (row.ref = s)).map fun row => row.count).sum
          = errTableTotal errT s)
    ∧ (∀ row ∈ errT, row.token ≠ GAP_CHAR)
    ∧ (∀ row ∈ confT, row.ref = GAP_CHAR → row.total_ref = 0) := by
  obtain ⟨syms, -, hgap, herr, hconf⟩ := compute_confusions_ok hok
  subst herr
  subst hconf
  refine ⟨?_, ?_, ?_, ?_⟩
  · intro row hrow
    obtain ⟨p, hp, rfl⟩ := confusionTable_mem hrow
    exact (errTableTotal_eq hgap).symm
  · intro s hs
    rw [fold_conf_sum hs lang, errTableTotal_eq hgap]
  · intro row hrow
    unfold errorTable at hrow
    obtain ⟨x, hx, rfl⟩ := List.mem_map.mp hrow
    simp only [mkErrRow]
    exact fun heq => gap_not_mem_errKeys hgap (heq ▸ hx)
  · intro row hrow href
    obtain ⟨p, hp, rfl⟩ := confusionTable_mem hrow
    simp only at href ⊢
    rw [href, err_from_empty]
    exact List.sum_eq_zero fun x hx => by
      obtain ⟨q, hq, rfl⟩ := List.mem_map.mp hx
      exact bumpCount_gap_total q.1 q.2

/-- Witness for C5: in the concrete run of `C1_witness`, the confusion row for
`(b, c)` carries `total_ref = 1`, the `TOTAL_TRUE_COUNT` of `b` in the Error
Table. -/
theorem C5_witness :
    (ConfRow.mk "b" "c" 1 1 "L").total_ref
      = errTableTotal
          [⟨"a", some 2, some 2, none, none, none, "L"⟩,
           ⟨"b", some 1, none, none, none, some 1, "L"⟩]
          (ConfRow.mk "b" "c" 1 1 "L").ref :=
  (C5_confusion_table_consistency (fun r h _ => r.zip h)
    [⟨"u1", "a b a", some "a c a"⟩] "L" (some []) "per"
    [⟨"a", some 2, some 2, none, none, none, "L"⟩,
     ⟨"b", some 1, none, none, none, some 1, "L"⟩]
    [⟨"a", "a", 2, 2, "L"⟩, ⟨"b", "c", 1, 1, "L"⟩]
    rfl).1 (ConfRow.mk "b" "c" 1 1 "L") (by decide)

/-- C2: for every aligned pair `(r, h)` consumed by the classifier (never both
gap): `r = h` is counted as `OK` for `r`; `r` gap is counted as an `INSERTION`
attributed to `h`; `h` gap is counted as a `DELETION` attributed to `r`;
otherwise a `SUBSTITUTION` attributed to `r`; and whenever `r` is real,
`TOTAL_TRUE_COUNT` of `r` is incremented by one independent of the kind
(and not at all when `r` is the gap). -/
theorem C2_classifier_cases (r h : String) (e : String → String → Nat)
    (hgap : ¬(r = GAP_CHAR ∧ h = GAP_CHAR)) :
    (r = h → classifyBump e r h r "OK" = e r "OK" + 1)
    ∧ (r = GAP_CHAR → classifyBump e r h h "INSERTION" = e h "INSERTION" + 1)
    ∧ (h = GAP_CHAR → classifyBump e r h r "DELETION" = e r "DELETION" + 1)
    ∧ (r ≠ h → r ≠ GAP_CHAR → h ≠ GAP_CHAR →
        classifyBump e r h r "SUBSTITUTION" = e r "SUBSTITUTION" + 1)
    ∧ (r ≠ GAP_CHAR →
        classifyBump e r h r "TOTAL_TRUE_COUNT" = e r "TOTAL_TRUE_COUNT" + 1)
    ∧ (r = GAP_CHAR → ∀ s,
        classifyBump e r h s "TOTAL_TRUE_COUNT" = e s "TOTAL_TRUE_COUNT") := by
  refine ⟨?_, ?_, ?_, ?_, ?_, ?_⟩
  · intro hrh
    subst hrh
    rw [classifyBump_apply]
    have hbc : bumpCount r r r "OK" = 1 := by
      simp [bumpCount, show ("OK" : String) ≠ "TOTAL_TRUE_COUNT" from by decide]
    omega
  · intro hr
    subst hr
    have hh : h ≠ GAP_CHAR := fun hh => hgap ⟨rfl, hh⟩
    rw [classifyBump_apply]
    have hbc : bumpCount GAP_CHAR h h "INSERTION" = 1 := by
      simp [bumpCount, show GAP_CHAR ≠ h from fun hc => hh hc.symm]
    omega
  · intro hh
    subst hh
    have hr : r ≠ GAP_CHAR := fun hr => hgap ⟨hr, rfl⟩
    rw [classifyBump_apply]
    have hbc : bumpCount r GAP_CHAR r "DELETION" = 1 := by
      simp [bumpCount, hr,
        show ("DELETION" : String) ≠ "TOTAL_TRUE_COUNT" from by decide]
    omega
  · intro hrh hr hh
    rw [classifyBump_apply]
    have hbc : bumpCount r h r "SUBSTITUTION" = 1 := by
      simp [bumpCount, hrh, hr, hh,
        show ("SUBSTITUTION" : String) ≠ "TOTAL_TRUE_COUNT" from by decide]
    omega
  · intro hr
    rw [classifyBump_apply]
    have hbc : bumpCount r h r "TOTAL_TRUE_COUNT" = 1 := by
      rw [bumpCount_total hr, if_pos rfl]
    omega
  · intro hr s
    subst hr
    rw [classifyBump_apply]
    have hbc : bumpCount GAP_CHAR h s "TOTAL_TRUE_COUNT" = 0 :=
      bumpCount_gap_total_left h s
    omega

/-- Witness for C2: a concrete deletion pair `(a, *)` increments the
`DELETION` count of `a` from `0` to `1`. -/
theorem C2_witness :
    classifyBump (fun _ _ => 0) "a" "*" "a" "DELETION"
      = (fun _ _ : String => (0 : Nat)) "a" "DELETION" + 1 :=
  (C2_classifier_cases "a" "*" (fun _ _ => 0) (by decide)).2.2.1 rfl

/-- C3: with `ignore_symbols = None` (the default), `compute_confusions` does
not fall back to stripping the `<silence>` marker: it raises `TypeError`
inside `get_ignored_symbols_re` (joining `None` with `|`) before any
utterance pair is processed, so the documented fallback branch is dead code
and the claimed exception-free completion fails. -/
theorem C3_none_ignore_symbols_raises (aF : AlignFn) (pairs : List SeqPair)
    (lang sm : String) :
    compute_confusions aF pairs lang none sm
      = .error "TypeError: can only join an iterable" := rfl

/-- Helper for C6: dropping the pairs with a missing hypothesis up front does
not change the collected alignments — `compute_confusions` skips them. -/
theorem collectAlis_filter_hyp (aF : AlignFn) (rp : List String) (sm : String) :
    ∀ pairs : List SeqPair,
      collectAlis aF rp sm pairs
        = collectAlis aF rp sm (pairs.filter fun p => p.hyp.isSome) := by
  intro pairs
  induction pairs with
  | nil => rfl
  | cons item rest ih =>
    cases hi : item.hyp with
    | none => simp [collectAlis, hi, ih, List.filter_cons]
    | some v => simp [collectAlis, hi, ih, List.filter_cons]

/-- C6: utterance pairs whose hypothesis is absent are skipped entirely by
`compute_confusions` (they contribute nothing to either table, in particular
no deletions), and `join_ref_hyp` logs a warning with the count of missing
hypothesis IDs: with ref IDs `u1`, `u2` and hyp IDs `u1`, only `u1` carries a
hypothesis and the warning reports `1` missing ID. -/
theorem C6_missing_hypotheses_skipped :
    (∀ (aF : AlignFn) (pairs : List SeqPair) (lang : String)
        (ig : Option (List String)) (sm : String),
      compute_confusions aF pairs lang ig sm
        = compute_confusions aF (pairs.filter fun p => p.hyp.isSome) lang ig sm)
    ∧ join_ref_hyp [("u1", "a b"), ("u2", "c")] [("u1", "a b")]
        = (["Found 1 missing IDs in the hypothesis set."],
           [⟨"u1", "a b", some "a b"⟩, ⟨"u2", "c", none⟩]) := by
  constructor
  · intro aF pairs lang ig sm
    cases ig with
    | none => rfl
    | some syms =>
      simp only [compute_confusions, get_ignored_symbols_re]
      rw [← collectAlis_filter_hyp]
  · rfl

/-- Helper for C7: every collected alignment is an output of the alignment
primitive. -/
theorem collectAlis_mem {aF : AlignFn} {rp : List String} {sm : String} :
    ∀ {pairs : List SeqPair} {ali : List (String × String)},
      ali ∈ collectAlis aF rp sm pairs → ∃ r h, ali = aF r h GAP_CHAR := by
  intro pairs
  induction pairs with
  | nil => intro ali h; cases h
  | cons item rest ih =>
    intro ali hali
    cases hi : item.hyp with
    | none =>
      rw [collectAlis, hi] at hali
      exact ih hali
    | some v =>
      rw [collectAlis, hi] at hali
      simp only at hali
      split at hali
      · exact ih hali
      · rcases List.mem_cons.mp hali with rfl | htail
        · exact ⟨_, _, rfl⟩
        · exact ih htail

/-- C7: the classifier fails fatally (`AssertionError`) on an aligned pair
with both sides equal to the gap marker, and under the alignment contract
(no such pair is ever produced) the failure branch is unreachable, so
classification of any contract-respecting alignment completes and returns
tables. -/
theorem C7_both_gap_assertion :
    (compute_confusions (fun _ _ _ => [(GAP_CHAR, GAP_CHAR)])
        [⟨"u1", "a", some "b"⟩] "L" (some []) "per" = .error "AssertionError")
    ∧ ∀ (aF : AlignFn) (pairs : List SeqPair) (lang : String)
        (syms : List String) (sm : String),
        (∀ r h, ∀ p ∈ aF r h GAP_CHAR, ¬(p.1 = GAP_CHAR ∧ p.2 = GAP_CHAR)) →
        ∃ out, compute_confusions aF pairs lang (some syms) sm = .ok out := by
  constructor
  · rfl
  · intro aF pairs lang syms sm hcontract
    have hgap : ∀ p ∈ (collectAlis aF syms sm pairs).flatten,
        ¬(p.1 = GAP_CHAR ∧ p.2 = GAP_CHAR) := by
      intro p hp
      obtain ⟨ali, hali, hpin⟩ := List.mem_flatten.mp hp
      obtain ⟨r, h, rfl⟩ := collectAlis_mem hali
      exact hcontract r h p hpin
    refine ⟨(errorTable (foldTallies (collectAlis aF syms sm pairs).flatten
        emptyTallies) lang,
      confusionTable (foldTallies (collectAlis aF syms sm pairs).flatten
        emptyTallies) lang), ?_⟩
    simp only [compute_confusions, get_ignored_symbols_re]
    rw [processPairs_isSome hgap]

/-- Witness for C7: an alignment primitive that always returns the empty
alignment trivially satisfies the contract, and `compute_confusions` with it
completes successfully. -/
theorem C7_witness :
    ∃ out, compute_confusions (fun _ _ _ => []) [⟨"u1", "a", some "a"⟩] "L"
        (some []) "per" = .ok out :=
  C7_both_gap_assertion.2 (fun _ _ _ => []) [⟨"u1", "a", some "a"⟩] "L" [] "per"
    (fun _ _ p hp => absurd hp (List.not_mem_nil p))

/-- Counterexample for C4: two singleton experiment entries merged in the two
orders give long-form tables with the same rows but in different row order,
so the outputs are not byte-identical. -/
theorem C4_counterexample :
    ¬ (aggregate_expts
        [(⟨"t1", "mono", none, "per"⟩,
          [[⟨"a", some 1, some 1, none, none, none, "L1"⟩]]),
         (⟨"t2", "mono", none, "per"⟩,
          [[⟨"b", some 2, none, none, some 2, none, "L2"⟩]])]
      = aggregate_expts
        [(⟨"t2", "mono", none, "per"⟩,
          [[⟨"b", some 2, none, none, some 2, none, "L2"⟩]]),
         (⟨"t1", "mono", none, "per"⟩,
          [[⟨"a", some 1, some 1, none, none, none, "L1"⟩]])]) := by
  decide

/-- C4 (amended): the cross-experiment merge (`aggregate_expts` and
`aggregate_confusions`) is order-independent up to row order — permuting the
experiment entries permutes the rows of the merged long-form table (the same
rows with the same counts, i.e. equality as a multiset).  The concatenation
order of the rows follows the entry order, so the tables are not
byte-identical (see `C4_counterexample`). -/
theorem C4_merge_order_independent_up_to_permutation
    (e1 e2 : List (ExpKey × List (List ErrRow)))
    (c1 c2 : List (ExpKey × List (List ConfRow)))
    (he : e1.Perm e2) (hc : c1.Perm c2) :
    (aggregate_expts e1).Perm (aggregate_expts e2)
    ∧ (aggregate_confusions c1).Perm (aggregate_confusions c2) := by
  constructor
  · simp only [aggregate_expts]
    exact ((((((he.map _).map _).map _).flatten).map _).filter _)
  · simp only [aggregate_confusions]
    exact (((hc.map _).map _).flatten)

/-- Witness for C4: the permutation statement applied to the concrete swapped
entries of the counterexample (and a swapped confusion-table pair). -/
theorem C4_witness :
    (aggregate_expts
        [(⟨"t1", "mono", none, "per"⟩,
          [[⟨"a", some 1, some 1, none, none, none, "L1"⟩]]),
         (⟨"t2", "mono", none, "per"⟩,
          [[⟨"b", some 2, none, none, some 2, none, "L2"⟩]])]).Perm
      (aggregate_expts
        [(⟨"t2", "mono", none, "per"⟩,
          [[⟨"b", some 2, none, none, some 2, none, "L2"⟩]]),
         (⟨"t1", "mono", none, "per"⟩,
          [[⟨"a", some 1, some 1, none, none, none, "L1"⟩]])])
    ∧ (aggregate_confusions
        [(⟨"t1", "mono", none, "per"⟩, [[⟨"a", "b", 1, 2, "L1"⟩]]),
         (⟨"t2", "mono", none, "per"⟩, [[⟨"b", "*", 3, 4, "L2"⟩]])]).Perm
      (aggregate_confusions
        [(⟨"t2", "mono", none, "per"⟩, [[⟨"b", "*", 3, 4, "L2"⟩]]),
         (⟨"t1", "mono", none, "per"⟩, [[⟨"a", "b", 1, 2, "L1"⟩]])]) :=
  C4_merge_order_independent_up_to_permutation _ _ _ _
    (List.Perm.swap _ _ _) (List.Perm.swap _ _ _)

/-- Helper for C9: the zero-fill step does not change a row's token. -/
theorem fillRow_token (r : AggErrRow) : (fillRow r).token = r.token := by
  unfold fillRow
  split <;> rfl

/-- C9: in the cross-experiment error merge, rows whose token is one of the
fixed `IGNORED_SYMBOLS` are removed (before the zero-fill step), in addition
to and separately from the removal of tokens containing the markup character
(after the fill), so a symbol in `IGNORED_SYMBOLS` never appears in the final
long-form Error Table even when it has counts — as the concrete run with a
counted `-` row shows. -/
theorem C9_ignored_symbols_removed :
    (∀ dfs : List (ExpKey × List (List ErrRow)),
      (aggregate_expts dfs).all
        (fun r => decide (r.token ∉ IGNORED_SYMBOLS)
          && !(r.token.data.contains '<')) = true)
    ∧ aggregate_expts
        [(⟨"t1", "mono", none, "per"⟩,
          [[⟨"-", some 5, some 5, none, none, none, "L"⟩,
            ⟨"a", some 1, none, none, some 1, none, "L"⟩]])]
      = [⟨"a", some 1, some 0, some 0, some 1, some 0, "L",
          "t1", "mono", none, "per", "t1_mono_None_per"⟩] := by
  constructor
  · intro dfs
    apply List.all_eq_true.mpr
    intro r hr
    simp only [aggregate_expts, List.map_map] at hr
    obtain ⟨hmem, hlt⟩ := List.mem_filter.mp hr
    obtain ⟨r0, hr0, rfl⟩ := List.mem_map.mp hmem
    obtain ⟨blk, hblk, hr0b⟩ := List.mem_flatten.mp hr0
    obtain ⟨kv, -, rfl⟩ := List.mem_map.mp hblk
    obtain ⟨r1, hr1, rfl⟩ := List.mem_map.mp hr0b
    have htok1 : (fillRow (tagErrRow kv.1 r1)).token = r1.token := fillRow_token _
    rw [Bool.and_eq_true]
    constructor
    · have := (List.mem_filter.mp hr1).2
      simpa [htok1] using this
    · rw [fillRow_token] at hlt ⊢
      exact hlt
  · decide

/-- C8: in base-collapsed (`bper`) mode each token is mapped through the base
classifier after stripping one leading stress mark and matching a registered
base by prefix (`ˈa:` maps to the class of `a`), and every token whose base is
the unknown sentinel `?` is dropped from its sequence entirely before
alignment, independently per side — never aligned as a gap, as the concrete
run shows: the unknown token `≋` leaves no deletion behind. -/
theorem C8_bper_mode :
    determine_base "ˈa:" = "a"
    ∧ (∀ toks : List String, decide ("?" ∈ bperTokens toks) = false)
    ∧ (∀ (remove_pattern : List String) (text : String),
        normTokens remove_pattern "bper" text
          = bperTokens (pySplit (patternSub remove_pattern text)))
    ∧ bperTokens ["ˈa:", "≋"] = ["a"]
    ∧ compute_confusions (fun r h _ => r.zip h) [⟨"u1", "ˈa: ≋", some "ˈa:"⟩]
        "L" (some []) "bper"
      = .ok ([⟨"a", some 1, some 1, none, none, none, "L"⟩],
             [⟨"a", "a", 1, 1, "L"⟩]) := by
  refine ⟨by decide, ?_, fun _ _ => rfl, by decide, rfl⟩
  intro toks
  apply decide_eq_false
  intro hmem
  obtain ⟨p, hp, hdet⟩ := List.mem_map.mp hmem
  have : decide (determine_base p ≠ "?") = true := (List.mem_filter.mp hp).2
  exact (of_decide_eq_true this) hdet

/-! ## Supporting lemmas for C10: unique prefix matches -/

theorem find?_eq_head_filter {α : Type} (q : α → Bool) :
    ∀ l : List α, l.find? q = (l.filter q).head? := by
  intro l
  induction l with
  | nil => rfl
  | cons a l ih =>
    by_cases hqa : q a = true
    · rw [List.find?_cons_of_pos _ hqa, List.filter_cons_of_pos hqa]
      rfl
    · rw [List.find?_cons_of_neg _ (by simpa using hqa),
        List.filter_cons_of_neg (by simpa using hqa), ih]

/-- If at most one element (up to equality) can satisfy `q`, then `find?` is
invariant under permutation. -/
theorem find?_congr_perm {α : Type} {l l' : List α} (q : α → Bool)
    (hperm : l.Perm l')
    (huniq : ∀ a ∈ l, ∀ b ∈ l, q a = true → q b = true → a = b) :
    l.find? q = l'.find? q := by
  rw [find?_eq_head_filter, find?_eq_head_filter]
  have hpf : (l.filter q).Perm (l'.filter q) := hperm.filter q
  rcases hf : l.filter q with - | ⟨a, as⟩
  · rw [hf] at hpf
    rw [(hpf.symm).eq_nil]
  · rcases hf' : l'.filter q with - | ⟨b, bs⟩
    · rw [hf, hf'] at hpf
      exact absurd hpf.eq_nil (by simp)
    · have ha : a ∈ l.filter q := by rw [hf]; exact List.mem_cons_self a as
      have hb : b ∈ l'.filter q := by rw [hf']; exact List.mem_cons_self b bs
      have hal := List.mem_filter.mp ha
      have hbl := List.mem_filter.mp hb
      have hbl' : b ∈ l := (hperm.mem_iff).mpr hbl.1
      have : a = b := huniq a hal.1 b hbl' hal.2 hbl.2
      rw [this]
      rfl

/-- Two single-character strings that are both prefixes of the same string are
equal. -/
theorem single_char_same_start {k k' s : String} (hk : k.length = 1)
    (hk' : k'.length = 1) (h1 : pyStartsWith s k = true)
    (h2 : pyStartsWith s k' = true) : k = k' := by
  have hk2 : k.data.length = 1 := hk
  have hk'2 : k'.data.length = 1 := hk'
  obtain ⟨c, hc⟩ := List.length_eq_one.mp hk2
  obtain ⟨c', hc'⟩ := List.length_eq_one.mp hk'2
  unfold pyStartsWith at h1 h2
  rw [hc] at h1
  rw [hc'] at h2
  obtain ⟨t, ht⟩ := (List.isPrefixOf_iff_prefix.mp h1)
  obtain ⟨t', ht'⟩ := (List.isPrefixOf_iff_prefix.mp h2)
  have e1 : s.data.head? = some c := by rw [← ht]; rfl
  have e2 : s.data.head? = some c' := by rw [← ht']; rfl
  have hcc : c = c' := by
    have := e1.symm.trans e2
    simpa using this
  apply String.ext
  rw [hc, hc', hcc]

/-- C10: every registered entry of the place and manner tables (and hence of
the combined base set) is a single character, so at most one entry can be a
prefix of any stress-stripped symbol; therefore `determine_place`,
`determine_manner` and `determine_base` return the same result for every
enumeration order of their tables — in particular `determine_base`, which
iterates an unordered `frozenset`, is a deterministic function of its
input. -/
theorem C10_classifiers_order_independent :
    (∀ kv ∈ phone_to_place, kv.1.length = 1)
    ∧ (∀ kv ∈ phone_to_manner, kv.1.length = 1)
    ∧ (∀ b ∈ PHONE_BASES, b.length = 1)
    ∧ (∀ l : List (String × String), l.Perm phone_to_place →
        ∀ p, determine_place_with l p = determine_place p)
    ∧ (∀ l : List (String × String), l.Perm phone_to_manner →
        ∀ p, determine_manner_with l p = determine_manner p)
    ∧ (∀ l : List String, l.Perm PHONE_BASES →
        ∀ p, determine_base_with l p = determine_base p) := by
  have hval1 : ∀ kv ∈ phone_to_place, kv.1.length = 1 := by decide
  have hval2 : ∀ kv ∈ phone_to_manner, kv.1.length = 1 := by decide
  have hval3 : ∀ b ∈ PHONE_BASES, b.length = 1 := by decide
  have hnd1 : (phone_to_place.map Prod.fst).Nodup := by decide
  have hnd2 : (phone_to_manner.map Prod.fst).Nodup := by decide
  refine ⟨hval1, hval2, hval3, ?_, ?_, ?_⟩
  · intro l hperm p
    by_cases hp : p = "*"
    · simp only [determine_place_with, determine_place, if_pos hp]
    · have huniq : ∀ a ∈ l, ∀ b ∈ l,
          pyStartsWith (stripStress p) a.1 = true →
          pyStartsWith (stripStress p) b.1 = true → a = b := by
        intro a hal b hbl hqa hqb
        have hat : a ∈ phone_to_place := hperm.mem_iff.mp hal
        have hbt : b ∈ phone_to_place := hperm.mem_iff.mp hbl
        exact List.inj_on_of_nodup_map hnd1 hat hbt
          (single_char_same_start (hval1 a hat) (hval1 b hbt) hqa hqb)
      simp only [determine_place_with, determine_place, if_neg hp]
      rw [find?_congr_perm (fun kv => pyStartsWith (stripStress p) kv.1)
        hperm huniq]
  · intro l hperm p
    by_cases hp : p = "*"
    · simp only [determine_manner_with, determine_manner, if_pos hp]
    · have huniq : ∀ a ∈ l, ∀ b ∈ l,
          pyStartsWith (stripStress p) a.1 = true →
          pyStartsWith (stripStress p) b.1 = true → a = b := by
        intro a hal b hbl hqa hqb
        have hat : a ∈ phone_to_manner := hperm.mem_iff.mp hal
        have hbt : b ∈ phone_to_manner := hperm.mem_iff.mp hbl
        exact List.inj_on_of_nodup_map hnd2 hat hbt
          (single_char_same_start (hval2 a hat) (hval2 b hbt) hqa hqb)
      simp only [determine_manner_with, determine_manner, if_neg hp]
      rw [find?_congr_perm (fun kv => pyStartsWith (stripStress p) kv.1)
        hperm huniq]
  · intro l hperm p
    by_cases hp : p = "*"
    · simp only [determine_base_with, determine_base, if_pos hp]
    · have huniq : ∀ a ∈ l, ∀ b ∈ l,
          pyStartsWith (stripStress p) a = true →
          pyStartsWith (stripStress p) b = true → a = b := by
        intro a hal b hbl hqa hqb
        exact single_char_same_start
          (hval3 a (hperm.mem_iff.mp hal)) (hval3 b (hperm.mem_iff.mp hbl))
          hqa hqb
      simp only [determine_base_with, determine_base, if_neg hp]
      rw [find?_congr_perm (fun base => pyStartsWith (stripStress p) base)
        hperm huniq]

/-- Witness for C10: the first registered place entry is a single character,
and `determine_base` over the base enumeration with its first two elements
swapped agrees with the default enumeration on the stressed phone `ˈpa`. -/
theorem C10_witness :
    (("p", "Bilabial") : String × String).1.length = 1
    ∧ determine_base_with ("b" :: "p" :: PHONE_BASES.drop 2) "ˈpa"
        = determine_base "ˈpa" :=
  ⟨C10_classifiers_order_independent.1 ("p", "Bilabial") (by decide),
   C10_classifiers_order_independent.2.2.2.2.2
     ("b" :: "p" :: PHONE_BASES.drop 2)
     (by
       have h := List.Perm.swap "p" "b" (PHONE_BASES.drop 2)
       have heq : "p" :: "b" :: PHONE_BASES.drop 2 = PHONE_BASES := by decide
       rw [heq] at h
       exact h)
     "ˈpa"⟩

end Alignysis
